import Mathlib

/-!
Verification of the `tcp-cl-proxy` admission gate and session lifecycle

This file shallowly embeds the two near-duplicate Go source variants of the
`tcp-cl-proxy` repository (`src/main.go` and `src/unnamed/part_000`) and
proves or refutes the frozen claims about them.

The admission gate (`pre`/`post` in `main.go`, `(*client).setup` /
`(*client).teardown` in `part_000`) is embedded as a small-step transition
system: one thread per session, a program counter per thread mirroring the
individual Go statements of the gate protocol, a mutex modelled as
`Option Nat` (the index of the holding thread), and the shared counters
`active` and `waiting` as `Int` (Go `int`).  Every counter mutation in the
source happens inside a lock-held critical section; correspondingly every
counter-mutating rule of the step function requires `lock = some i`.
`sync.Cond.Wait` atomically unlocks and parks (rule `checkBusy`),
re-acquires the lock on wakeup before re-testing the loop condition (rules
`wakeLock` then `checkBusy`/`checkFree`), and `sync.Cond.Signal` wakes an
arbitrary parked thread or is a no-op when none are parked (rule `signal`).
The `didWait` flag mirrors `c.didWait` of `part_000`.
-/

set_option autoImplicit false

namespace TcpClProxy

/-- Program counter of one session thread through the gate protocol.
* `start`    : about to enter `pre` / `setup`, must take the lock first
* `locked1`  : holds the lock, about to execute `waiting++`
* `check`    : holds the lock, at the `for active == concurrency` loop test
* `parked`   : inside `wCond.Wait()`, lock released, needs a `Signal`
* `woken`    : signalled, must re-acquire the lock before re-testing
* `admit1`   : holds the lock, loop test failed, about to run `waiting--`
* `admit2`   : holds the lock, about to run `active++`
* `unlockA`  : holds the lock, about to release it (end of `pre`/`setup`)
* `body`     : admitted, running the session body (dial/pump)
* `post0`    : about to enter `post` / the gate part of `teardown`
* `locked2`  : holds the lock, about to run `active--`
* `unlockR`  : holds the lock, about to release it
* `sig`      : lock released, about to call `wCond.Signal()`
* `final`    : session finished -/
inductive PC
  | start | locked1 | check | parked | woken
  | admit1 | admit2 | unlockA | body
  | post0 | locked2 | unlockR | sig | final
  deriving DecidableEq, Repr

/-- One session thread: its program counter and the `didWait` flag of
`part_000` (set inside the wait loop just before `wCond.Wait()`). -/
structure Th where
  pc : PC
  didWait : Bool
  deriving DecidableEq, Repr

/-- Global state of the admission gate together with all session threads.
`capacity` is the `concurrency` flag, immutable after startup; `lock` is
`wCond.L`, holding the index of the owning thread when taken. -/
structure GateState where
  capacity : Int
  active : Int
  waiting : Int
  lock : Option Nat
  pcs : List Th
  deriving DecidableEq, Repr

/-- The atomic steps of the gate protocol; each rule corresponds to one Go
statement (or to the atomic unlock-and-park / lock-and-return halves of
`sync.Cond.Wait`).  `signal (some j)` wakes parked thread `j`;
`signal none` is the no-op case, legal only when no thread is parked. -/
inductive Rule
  | lockPre | incWaiting | checkBusy | checkFree
  | decWaiting | incActive | unlockAdmit
  | bodyDone | lockPost | decActive | unlockRel
  | signal (target : Option Nat)
  | wakeLock
  deriving DecidableEq, Repr

/-- One atomic step of thread `i` using rule `r`: `none` when the rule does
not apply (wrong program point, lock not available, guard false). -/
def stepFn (i : Nat) (r : Rule) (s : GateState) : Option GateState :=
  match s.pcs[i]?, r with
  | some t, .lockPre =>
    if t.pc = .start ∧ s.lock = none then
      some { s with lock := some i, pcs := s.pcs.set i { t with pc := .locked1 } }
    else none
  | some t, .incWaiting =>
    if t.pc = .locked1 ∧ s.lock = some i then
      some { s with waiting := s.waiting + 1,
                    pcs := s.pcs.set i { t with pc := .check } }
    else none
  | some t, .checkBusy =>
    if t.pc = .check ∧ s.lock = some i ∧ s.active = s.capacity then
      some { s with lock := none,
                    pcs := s.pcs.set i { t with pc := .parked, didWait := true } }
    else none
  | some t, .checkFree =>
    if t.pc = .check ∧ s.lock = some i ∧ s.active ≠ s.capacity then
      some { s with pcs := s.pcs.set i { t with pc := .admit1 } }
    else none
  | some t, .decWaiting =>
    if t.pc = .admit1 ∧ s.lock = some i then
      some { s with waiting := s.waiting - 1,
                    pcs := s.pcs.set i { t with pc := .admit2 } }
    else none
  | some t, .incActive =>
    if t.pc = .admit2 ∧ s.lock = some i then
      some { s with active := s.active + 1,
                    pcs := s.pcs.set i { t with pc := .unlockA } }
    else none
  | some t, .unlockAdmit =>
    if t.pc = .unlockA ∧ s.lock = some i then
      some { s with lock := none, pcs := s.pcs.set i { t with pc := .body } }
    else none
  | some t, .bodyDone =>
    if t.pc = .body then
      some { s with pcs := s.pcs.set i { t with pc := .post0 } }
    else none
  | some t, .lockPost =>
    if t.pc = .post0 ∧ s.lock = none then
      some { s with lock := some i, pcs := s.pcs.set i { t with pc := .locked2 } }
    else none
  | some t, .decActive =>
    if t.pc = .locked2 ∧ s.lock = some i then
      some { s with active := s.active - 1,
                    pcs := s.pcs.set i { t with pc := .unlockR } }
    else none
  | some t, .unlockRel =>
    if t.pc = .unlockR ∧ s.lock = some i then
      some { s with lock := none, pcs := s.pcs.set i { t with pc := .sig } }
    else none
  | some t, .signal none =>
    if t.pc = .sig ∧ (∀ u ∈ s.pcs, u.pc ≠ .parked) then
      some { s with pcs := s.pcs.set i { t with pc := .final } }
    else none
  | some t, .signal (some j) =>
    match s.pcs[j]? with
    | some u =>
      if t.pc = .sig ∧ u.pc = .parked ∧ i ≠ j then
        some { s with pcs := (s.pcs.set i { t with pc := .final }).set j
                              { u with pc := .woken } }
      else none
    | none => none
  | some t, .wakeLock =>
    if t.pc = .woken ∧ s.lock = none then
      some { s with lock := some i, pcs := s.pcs.set i { t with pc := .check } }
    else none
  | none, _ => none

/-- Run a whole schedule (list of thread-index/rule pairs); `none` when
some step does not apply. -/
def run (s : GateState) : List (Nat × Rule) → Option GateState
  | [] => some s
  | (i, r) :: tr =>
    match stepFn i r s with
    | some s' => run s' tr
    | none => none

/-- A state is reachable from `s₀` when some schedule leads to it. -/
def Reachable (s₀ s : GateState) : Prop := ∃ tr, run s₀ tr = some s

/-- Initial state: `n` session threads about to enter the gate, both
counters zero, lock free, configured capacity `cap`. -/
def mkInit (n : Nat) (cap : Int) : GateState :=
  { capacity := cap, active := 0, waiting := 0, lock := none,
    pcs := List.replicate n { pc := .start, didWait := false } }

/-- Program points at which the Go code holds `wCond.L`. -/
def holdsLock : PC → Bool
  | .locked1 | .check | .admit1 | .admit2 | .unlockA
  | .locked2 | .unlockR => true
  | _ => false

/-- Program points at which a thread is counted in `waiting`: from its own
`waiting++` up to (but excluding) its own `waiting--`. -/
def inWaitCount : PC → Bool
  | .check | .parked | .woken | .admit1 => true
  | _ => false

/-- Program points at which a thread is counted in `active`: from its own
`active++` up to (but excluding) its own `active--`. -/
def inActiveCount : PC → Bool
  | .unlockA | .body | .post0 | .locked2 => true
  | _ => false

/-- A thread actually blocked inside `Acquire`: parked in `Wait`, or woken
but not yet past the re-test. -/
def isBlocked : PC → Bool
  | .parked | .woken => true
  | _ => false

/-- Number of threads whose program counter satisfies `p`. -/
def countPCs (p : PC → Bool) (ts : List Th) : Nat :=
  ts.countP (fun t => p t.pc)

/-! List helper lemmas -/

theorem countP_set_add {α : Type} (p : α → Bool) :
    ∀ (l : List α) (i : Nat) (a b : α), l[i]? = some a →
      (l.set i b).countP p + (if p a then 1 else 0)
        = l.countP p + (if p b then 1 else 0)
  | [], _, _, _, h => by simp at h
  | x :: xs, 0, a, b, h => by
    have hxa : x = a := by simpa using h
    subst hxa
    simp only [List.set, List.countP_cons]
    omega
  | x :: xs, i + 1, a, b, h => by
    have h' : xs[i]? = some a := by simpa using h
    have ih := countP_set_add p xs i a b h'
    simp only [List.set, List.countP_cons]
    omega

theorem get_set_cases {ts : List Th} {i j : Nat} {t' u : Th}
    (h : (ts.set i t')[j]? = some u) :
    (j = i ∧ u = t' ∧ i < ts.length) ∨ (j ≠ i ∧ ts[j]? = some u) := by
  by_cases hij : j = i
  · subst hij
    left
    have hlt : j < ts.length := by
      by_contra hge
      rw [List.getElem?_eq_none_iff.mpr (by simpa [List.length_set] using Nat.le_of_not_lt hge)] at h
      exact Option.noConfusion h
    rw [List.getElem?_set_eq hlt] at h
    exact ⟨rfl, (Option.some.inj h).symm, hlt⟩
  · right
    rw [List.getElem?_set_ne (Ne.symm hij)] at h
    exact ⟨hij, h⟩

/-! The gate invariant -/

/-- The inductive invariant of the gate model: the shared counters equal
the number of threads in the corresponding program phases, the lock is
owned by exactly the thread whose program counter is inside a critical
section, a thread past the loop test but before its `active++` has a free
slot reserved, and `active` never exceeds `capacity`. -/
structure Inv (s : GateState) : Prop where
  wEq : s.waiting = (countPCs inWaitCount s.pcs : Int)
  aEq : s.active = (countPCs inActiveCount s.pcs : Int)
  lockOwn : ∀ (j : Nat) (u : Th), s.pcs[j]? = some u → holdsLock u.pc = true →
    s.lock = some j
  admitLt : ∀ (j : Nat) (u : Th), s.pcs[j]? = some u →
    (u.pc = .admit1 ∨ u.pc = .admit2) → s.active < s.capacity
  aLe : s.active ≤ s.capacity

theorem inv_mkInit (n : Nat) (cap : Int) (hcap : 0 ≤ cap) : Inv (mkInit n cap) := by
  have hz : ∀ p : PC → Bool, p .start = false →
      countPCs p (List.replicate n { pc := PC.start, didWait := false }) = 0 := by
    intro p hp
    unfold countPCs
    rw [List.countP_eq_zero]
    intro t ht
    rw [List.eq_of_mem_replicate ht]
    simpa using hp
  refine ⟨?_, ?_, ?_, ?_, ?_⟩
  · simp [mkInit, hz inWaitCount rfl]
  · simp [mkInit, hz inActiveCount rfl]
  · intro j u hj hu
    rw [List.eq_of_mem_replicate (List.getElem?_mem hj)] at hu
    exact absurd hu (by simp [holdsLock])
  · intro j u hj hu
    rw [List.eq_of_mem_replicate (List.getElem?_mem hj)] at hu
    rcases hu with h | h <;> exact absurd h (by decide)
  · simpa [mkInit] using hcap

theorem countPCs_set (p : PC → Bool) {ts : List Th} {i : Nat} {a : Th} (b : Th)
    (hg : ts[i]? = some a) :
    countPCs p (ts.set i b) + (if p a.pc then 1 else 0)
      = countPCs p ts + (if p b.pc then 1 else 0) := by
  simpa [countPCs] using countP_set_add (fun th => p th.pc) ts i a b hg

/-- Counting after a single thread update, with both `if`s evaluated. -/
theorem countPCs_set_val (p : PC → Bool) {ts : List Th} {i : Nat} {a : Th} (b : Th)
    (hg : ts[i]? = some a) (x y : Nat)
    (hx : (if p a.pc then 1 else 0) = x) (hy : (if p b.pc then 1 else 0) = y) :
    countPCs p (ts.set i b) + x = countPCs p ts + y := by
  rw [← hx, ← hy]
  exact countPCs_set p b hg

theorem ite_pc_val (p : PC → Bool) {c : PC} {t : Th} (h : t.pc = c) (x : Nat)
    (hx : (if p c then 1 else 0) = x) : (if p t.pc then 1 else 0) = x := by
  rw [h]
  exact hx

/-- Every step of the gate model preserves the invariant. -/
theorem inv_step {s s' : GateState} {i : Nat} {r : Rule}
    (inv : Inv s) (h : stepFn i r s = some s') : Inv s' := by
  obtain ⟨hw, ha, hlo, hadm, hle⟩ := inv
  cases hg : s.pcs[i]? with
  | none =>
    cases r
    case signal target => cases target <;> simp [stepFn, hg] at h
    all_goals simp [stepFn, hg] at h
  | some t =>
    cases r with
    | lockPre =>
      simp only [stepFn, hg] at h
      split at h
      next hc =>
        obtain ⟨hpc, hlkn⟩ := hc
        injection h with h
        subst h
        refine ⟨?_, ?_, ?_, ?_, ?_⟩
        · have hcw := countPCs_set_val inWaitCount ({ t with pc := PC.locked1 }) hg 0 0
            (ite_pc_val _ hpc 0 rfl) rfl
          dsimp only
          omega
        · have hca := countPCs_set_val inActiveCount ({ t with pc := PC.locked1 }) hg 0 0
            (ite_pc_val _ hpc 0 rfl) rfl
          dsimp only
          omega
        · intro j u hj hu
          rcases get_set_cases hj with ⟨rfl, rfl, -⟩ | ⟨hne, hold⟩
          · rfl
          · have hcontra := hlo j u hold hu
            rw [hlkn] at hcontra
            exact Option.noConfusion hcontra
        · intro j u hj hadm'
          rcases get_set_cases hj with ⟨rfl, rfl, -⟩ | ⟨hne, hold⟩
          · rcases hadm' with hx | hx <;> exact absurd hx (by simp)
          · have hu : holdsLock u.pc = true := by
              rcases hadm' with hx | hx <;> rw [hx] <;> rfl
            have hcontra := hlo j u hold hu
            rw [hlkn] at hcontra
            exact Option.noConfusion hcontra
        · exact hle
      next => exact Option.noConfusion h
    | incWaiting =>
      simp only [stepFn, hg] at h
      split at h
      next hc =>
        obtain ⟨hpc, hlk⟩ := hc
        injection h with h
        subst h
        refine ⟨?_, ?_, ?_, ?_, ?_⟩
        · have hcw := countPCs_set_val inWaitCount ({ t with pc := PC.check }) hg 0 1
            (ite_pc_val _ hpc 0 rfl) rfl
          dsimp only
          omega
        · have hca := countPCs_set_val inActiveCount ({ t with pc := PC.check }) hg 0 0
            (ite_pc_val _ hpc 0 rfl) rfl
          dsimp only
          omega
        · intro j u hj hu
          rcases get_set_cases hj with ⟨rfl, rfl, -⟩ | ⟨hne, hold⟩
          · exact hlk
          · exact absurd (Option.some.inj ((hlo j u hold hu).symm.trans hlk)) hne
        · intro j u hj hadm'
          rcases get_set_cases hj with ⟨rfl, rfl, -⟩ | ⟨hne, hold⟩
          · rcases hadm' with hx | hx <;> exact absurd hx (by simp)
          · have hu : holdsLock u.pc = true := by
              rcases hadm' with hx | hx <;> rw [hx] <;> rfl
            exact absurd (Option.some.inj ((hlo j u hold hu).symm.trans hlk)) hne
        · exact hle
      next => exact Option.noConfusion h
    | checkBusy =>
      simp only [stepFn, hg] at h
      split at h
      next hc =>
        obtain ⟨hpc, hlk, hac⟩ := hc
        injection h with h
        subst h
        refine ⟨?_, ?_, ?_, ?_, ?_⟩
        · have hcw := countPCs_set_val inWaitCount
            ({ t with pc := PC.parked, didWait := true }) hg 1 1
            (ite_pc_val _ hpc 1 rfl) rfl
          dsimp only
          omega
        · have hca := countPCs_set_val inActiveCount
            ({ t with pc := PC.parked, didWait := true }) hg 0 0
            (ite_pc_val _ hpc 0 rfl) rfl
          dsimp only
          omega
        · intro j u hj hu
          rcases get_set_cases hj with ⟨rfl, rfl, -⟩ | ⟨hne, hold⟩
          · exact absurd hu (by simp [holdsLock])
          · exact absurd (Option.some.inj ((hlo j u hold hu).symm.trans hlk)) hne
        · intro j u hj hadm'
          rcases get_set_cases hj with ⟨rfl, rfl, -⟩ | ⟨hne, hold⟩
          · rcases hadm' with hx | hx <;> exact absurd hx (by simp)
          · have hu : holdsLock u.pc = true := by
              rcases hadm' with hx | hx <;> rw [hx] <;> rfl
            exact absurd (Option.some.inj ((hlo j u hold hu).symm.trans hlk)) hne
        · exact hle
      next => exact Option.noConfusion h
    | checkFree =>
      simp only [stepFn, hg] at h
      split at h
      next hc =>
        obtain ⟨hpc, hlk, hne'⟩ := hc
        injection h with h
        subst h
        refine ⟨?_, ?_, ?_, ?_, ?_⟩
        · have hcw := countPCs_set_val inWaitCount ({ t with pc := PC.admit1 }) hg 1 1
            (ite_pc_val _ hpc 1 rfl) rfl
          dsimp only
          omega
        · have hca := countPCs_set_val inActiveCount ({ t with pc := PC.admit1 }) hg 0 0
            (ite_pc_val _ hpc 0 rfl) rfl
          dsimp only
          omega
        · intro j u hj hu
          rcases get_set_cases hj with ⟨rfl, rfl, -⟩ | ⟨hne, hold⟩
          · exact hlk
          · exact absurd (Option.some.inj ((hlo j u hold hu).symm.trans hlk)) hne
        · intro j u hj hadm'
          rcases get_set_cases hj with ⟨rfl, rfl, -⟩ | ⟨hne, hold⟩
          · exact lt_of_le_of_ne hle hne'
          · have hu : holdsLock u.pc = true := by
              rcases hadm' with hx | hx <;> rw [hx] <;> rfl
            exact absurd (Option.some.inj ((hlo j u hold hu).symm.trans hlk)) hne
        · exact hle
      next => exact Option.noConfusion h
    | decWaiting =>
      simp only [stepFn, hg] at h
      split at h
      next hc =>
        obtain ⟨hpc, hlk⟩ := hc
        injection h with h
        subst h
        refine ⟨?_, ?_, ?_, ?_, ?_⟩
        · have hcw := countPCs_set_val inWaitCount ({ t with pc := PC.admit2 }) hg 1 0
            (ite_pc_val _ hpc 1 rfl) rfl
          dsimp only
          omega
        · have hca := countPCs_set_val inActiveCount ({ t with pc := PC.admit2 }) hg 0 0
            (ite_pc_val _ hpc 0 rfl) rfl
          dsimp only
          omega
        · intro j u hj hu
          rcases get_set_cases hj with ⟨rfl, rfl, -⟩ | ⟨hne, hold⟩
          · exact hlk
          · exact absurd (Option.some.inj ((hlo j u hold hu).symm.trans hlk)) hne
        · intro j u hj hadm'
          rcases get_set_cases hj with ⟨rfl, rfl, -⟩ | ⟨hne, hold⟩
          · exact hadm _ t hg (Or.inl hpc)
          · have hu : holdsLock u.pc = true := by
              rcases hadm' with hx | hx <;> rw [hx] <;> rfl
            exact absurd (Option.some.inj ((hlo j u hold hu).symm.trans hlk)) hne
        · exact hle
      next => exact Option.noConfusion h
    | incActive =>
      simp only [stepFn, hg] at h
      split at h
      next hc =>
        obtain ⟨hpc, hlk⟩ := hc
        injection h with h
        subst h
        refine ⟨?_, ?_, ?_, ?_, ?_⟩
        · have hcw := countPCs_set_val inWaitCount ({ t with pc := PC.unlockA }) hg 0 0
            (ite_pc_val _ hpc 0 rfl) rfl
          dsimp only
          omega
        · have hca := countPCs_set_val inActiveCount ({ t with pc := PC.unlockA }) hg 0 1
            (ite_pc_val _ hpc 0 rfl) rfl
          dsimp only
          omega
        · intro j u hj hu
          rcases get_set_cases hj with ⟨rfl, rfl, -⟩ | ⟨hne, hold⟩
          · exact hlk
          · exact absurd (Option.some.inj ((hlo j u hold hu).symm.trans hlk)) hne
        · intro j u hj hadm'
          rcases get_set_cases hj with ⟨rfl, rfl, -⟩ | ⟨hne, hold⟩
          · rcases hadm' with hx | hx <;> exact absurd hx (by simp)
          · have hu : holdsLock u.pc = true := by
              rcases hadm' with hx | hx <;> rw [hx] <;> rfl
            exact absurd (Option.some.inj ((hlo j u hold hu).symm.trans hlk)) hne
        · have hlt := hadm i t hg (Or.inr hpc)
          dsimp only
          omega
      next => exact Option.noConfusion h
    | unlockAdmit =>
      simp only [stepFn, hg] at h
      split at h
      next hc =>
        obtain ⟨hpc, hlk⟩ := hc
        injection h with h
        subst h
        refine ⟨?_, ?_, ?_, ?_, ?_⟩
        · have hcw := countPCs_set_val inWaitCount ({ t with pc := PC.body }) hg 0 0
            (ite_pc_val _ hpc 0 rfl) rfl
          dsimp only
          omega
        · have hca := countPCs_set_val inActiveCount ({ t with pc := PC.body }) hg 1 1
            (ite_pc_val _ hpc 1 rfl) rfl
          dsimp only
          omega
        · intro j u hj hu
          rcases get_set_cases hj with ⟨rfl, rfl, -⟩ | ⟨hne, hold⟩
          · exact absurd hu (by simp [holdsLock])
          · exact absurd (Option.some.inj ((hlo j u hold hu).symm.trans hlk)) hne
        · intro j u hj hadm'
          rcases get_set_cases hj with ⟨rfl, rfl, -⟩ | ⟨hne, hold⟩
          · rcases hadm' with hx | hx <;> exact absurd hx (by simp)
          · have hu : holdsLock u.pc = true := by
              rcases hadm' with hx | hx <;> rw [hx] <;> rfl
            exact absurd (Option.some.inj ((hlo j u hold hu).symm.trans hlk)) hne
        · exact hle
      next => exact Option.noConfusion h
    | bodyDone =>
      simp only [stepFn, hg] at h
      split at h
      next hpc =>
        injection h with h
        subst h
        refine ⟨?_, ?_, ?_, ?_, ?_⟩
        · have hcw := countPCs_set_val inWaitCount ({ t with pc := PC.post0 }) hg 0 0
            (ite_pc_val _ hpc 0 rfl) rfl
          dsimp only
          omega
        · have hca := countPCs_set_val inActiveCount ({ t with pc := PC.post0 }) hg 1 1
            (ite_pc_val _ hpc 1 rfl) rfl
          dsimp only
          omega
        · intro j u hj hu
          rcases get_set_cases hj with ⟨rfl, rfl, -⟩ | ⟨hne, hold⟩
          · exact absurd hu (by simp [holdsLock])
          · exact hlo j u hold hu
        · intro j u hj hadm'
          rcases get_set_cases hj with ⟨rfl, rfl, -⟩ | ⟨hne, hold⟩
          · rcases hadm' with hx | hx <;> exact absurd hx (by simp)
          · exact hadm j u hold hadm'
        · exact hle
      next => exact Option.noConfusion h
    | lockPost =>
      simp only [stepFn, hg] at h
      split at h
      next hc =>
        obtain ⟨hpc, hlkn⟩ := hc
        injection h with h
        subst h
        refine ⟨?_, ?_, ?_, ?_, ?_⟩
        · have hcw := countPCs_set_val inWaitCount ({ t with pc := PC.locked2 }) hg 0 0
            (ite_pc_val _ hpc 0 rfl) rfl
          dsimp only
          omega
        · have hca := countPCs_set_val inActiveCount ({ t with pc := PC.locked2 }) hg 1 1
            (ite_pc_val _ hpc 1 rfl) rfl
          dsimp only
          omega
        · intro j u hj hu
          rcases get_set_cases hj with ⟨rfl, rfl, -⟩ | ⟨hne, hold⟩
          · rfl
          · have hcontra := hlo j u hold hu
            rw [hlkn] at hcontra
            exact Option.noConfusion hcontra
        · intro j u hj hadm'
          rcases get_set_cases hj with ⟨rfl, rfl, -⟩ | ⟨hne, hold⟩
          · rcases hadm' with hx | hx <;> exact absurd hx (by simp)
          · have hu : holdsLock u.pc = true := by
              rcases hadm' with hx | hx <;> rw [hx] <;> rfl
            have hcontra := hlo j u hold hu
            rw [hlkn] at hcontra
            exact Option.noConfusion hcontra
        · exact hle
      next => exact Option.noConfusion h
    | decActive =>
      simp only [stepFn, hg] at h
      split at h
      next hc =>
        obtain ⟨hpc, hlk⟩ := hc
        injection h with h
        subst h
        refine ⟨?_, ?_, ?_, ?_, ?_⟩
        · have hcw := countPCs_set_val inWaitCount ({ t with pc := PC.unlockR }) hg 0 0
            (ite_pc_val _ hpc 0 rfl) rfl
          dsimp only
          omega
        · have hca := countPCs_set_val inActiveCount ({ t with pc := PC.unlockR }) hg 1 0
            (ite_pc_val _ hpc 1 rfl) rfl
          dsimp only
          omega
        · intro j u hj hu
          rcases get_set_cases hj with ⟨rfl, rfl, -⟩ | ⟨hne, hold⟩
          · exact hlk
          · exact absurd (Option.some.inj ((hlo j u hold hu).symm.trans hlk)) hne
        · intro j u hj hadm'
          rcases get_set_cases hj with ⟨rfl, rfl, -⟩ | ⟨hne, hold⟩
          · rcases hadm' with hx | hx <;> exact absurd hx (by simp)
          · have hu : holdsLock u.pc = true := by
              rcases hadm' with hx | hx <;> rw [hx] <;> rfl
            exact absurd (Option.some.inj ((hlo j u hold hu).symm.trans hlk)) hne
        · dsimp only
          omega
      next => exact Option.noConfusion h
    | unlockRel =>
      simp only [stepFn, hg] at h
      split at h
      next hc =>
        obtain ⟨hpc, hlk⟩ := hc
        injection h with h
        subst h
        refine ⟨?_, ?_, ?_, ?_, ?_⟩
        · have hcw := countPCs_set_val inWaitCount ({ t with pc := PC.sig }) hg 0 0
            (ite_pc_val _ hpc 0 rfl) rfl
          dsimp only
          omega
        · have hca := countPCs_set_val inActiveCount ({ t with pc := PC.sig }) hg 0 0
            (ite_pc_val _ hpc 0 rfl) rfl
          dsimp only
          omega
        · intro j u hj hu
          rcases get_set_cases hj with ⟨rfl, rfl, -⟩ | ⟨hne, hold⟩
          · exact absurd hu (by simp [holdsLock])
          · exact absurd (Option.some.inj ((hlo j u hold hu).symm.trans hlk)) hne
        · intro j u hj hadm'
          rcases get_set_cases hj with ⟨rfl, rfl, -⟩ | ⟨hne, hold⟩
          · rcases hadm' with hx | hx <;> exact absurd hx (by simp)
          · have hu : holdsLock u.pc = true := by
              rcases hadm' with hx | hx <;> rw [hx] <;> rfl
            exact absurd (Option.some.inj ((hlo j u hold hu).symm.trans hlk)) hne
        · exact hle
      next => exact Option.noConfusion h
    | wakeLock =>
      simp only [stepFn, hg] at h
      split at h
      next hc =>
        obtain ⟨hpc, hlkn⟩ := hc
        injection h with h
        subst h
        refine ⟨?_, ?_, ?_, ?_, ?_⟩
        · have hcw := countPCs_set_val inWaitCount ({ t with pc := PC.check }) hg 1 1
            (ite_pc_val _ hpc 1 rfl) rfl
          dsimp only
          omega
        · have hca := countPCs_set_val inActiveCount ({ t with pc := PC.check }) hg 0 0
            (ite_pc_val _ hpc 0 rfl) rfl
          dsimp only
          omega
        · intro j u hj hu
          rcases get_set_cases hj with ⟨rfl, rfl, -⟩ | ⟨hne, hold⟩
          · rfl
          · have hcontra := hlo j u hold hu
            rw [hlkn] at hcontra
            exact Option.noConfusion hcontra
        · intro j u hj hadm'
          rcases get_set_cases hj with ⟨rfl, rfl, -⟩ | ⟨hne, hold⟩
          · rcases hadm' with hx | hx <;> exact absurd hx (by simp)
          · have hu : holdsLock u.pc = true := by
              rcases hadm' with hx | hx <;> rw [hx] <;> rfl
            have hcontra := hlo j u hold hu
            rw [hlkn] at hcontra
            exact Option.noConfusion hcontra
        · exact hle
      next => exact Option.noConfusion h
    | signal target =>
      cases target with
      | none =>
        simp only [stepFn, hg] at h
        split at h
        next hc =>
          obtain ⟨hpc, hnp⟩ := hc
          injection h with h
          subst h
          refine ⟨?_, ?_, ?_, ?_, ?_⟩
          · have hcw := countPCs_set_val inWaitCount ({ t with pc := PC.final }) hg 0 0
              (ite_pc_val _ hpc 0 rfl) rfl
            dsimp only
            omega
          · have hca := countPCs_set_val inActiveCount ({ t with pc := PC.final }) hg 0 0
              (ite_pc_val _ hpc 0 rfl) rfl
            dsimp only
            omega
          · intro j u hj hu
            rcases get_set_cases hj with ⟨rfl, rfl, -⟩ | ⟨hne, hold⟩
            · exact absurd hu (by simp [holdsLock])
            · exact hlo j u hold hu
          · intro j u hj hadm'
            rcases get_set_cases hj with ⟨rfl, rfl, -⟩ | ⟨hne, hold⟩
            · rcases hadm' with hx | hx <;> exact absurd hx (by simp)
            · exact hadm j u hold hadm'
          · exact hle
        next => exact Option.noConfusion h
      | some j =>
        simp only [stepFn, hg] at h
        cases hgj : s.pcs[j]? with
        | none =>
          rw [hgj] at h
          exact Option.noConfusion h
        | some u =>
          rw [hgj] at h
          dsimp only at h
          split at h
          next hc =>
            obtain ⟨hpc, hupc, hij⟩ := hc
            injection h with h
            subst h
            have hgj2 : (s.pcs.set i { t with pc := PC.final })[j]? = some u := by
              rw [List.getElem?_set_ne hij]
              exact hgj
            refine ⟨?_, ?_, ?_, ?_, ?_⟩
            · have hc1 := countPCs_set_val inWaitCount ({ t with pc := PC.final }) hg 0 0
                (ite_pc_val _ hpc 0 rfl) rfl
              have hc2 := countPCs_set_val inWaitCount ({ u with pc := PC.woken }) hgj2 1 1
                (ite_pc_val _ hupc 1 rfl) rfl
              dsimp only
              omega
            · have hc1 := countPCs_set_val inActiveCount ({ t with pc := PC.final }) hg 0 0
                (ite_pc_val _ hpc 0 rfl) rfl
              have hc2 := countPCs_set_val inActiveCount ({ u with pc := PC.woken }) hgj2 0 0
                (ite_pc_val _ hupc 0 rfl) rfl
              dsimp only
              omega
            · intro k v hk hv
              rcases get_set_cases hk with ⟨rfl, rfl, -⟩ | ⟨hkj, hk2⟩
              · exact absurd hv (by simp [holdsLock])
              · rcases get_set_cases hk2 with ⟨rfl, rfl, -⟩ | ⟨hki, hk3⟩
                · exact absurd hv (by simp [holdsLock])
                · exact hlo k v hk3 hv
            · intro k v hk hadm'
              rcases get_set_cases hk with ⟨rfl, rfl, -⟩ | ⟨hkj, hk2⟩
              · rcases hadm' with hx | hx <;> exact absurd hx (by simp)
              · rcases get_set_cases hk2 with ⟨rfl, rfl, -⟩ | ⟨hki, hk3⟩
                · rcases hadm' with hx | hx <;> exact absurd hx (by simp)
                · exact hadm k v hk3 hadm'
            · exact hle
          next => exact Option.noConfusion h

/-- Running any schedule preserves the invariant. -/
theorem inv_run {s : GateState} :
    ∀ {tr : List (Nat × Rule)} {s' : GateState},
      Inv s → run s tr = some s' → Inv s' := by
  intro tr
  induction tr generalizing s with
  | nil =>
    intro s' inv h
    injection h with h
    exact h ▸ inv
  | cons p tr ih =>
    intro s' inv h
    obtain ⟨i, r⟩ := p
    rw [run] at h
    cases hstep : stepFn i r s with
    | none => rw [hstep] at h; exact Option.noConfusion h
    | some sm =>
      rw [hstep] at h
      exact ih (inv_step inv hstep) h

/-- Capacity is immutable across steps. -/
theorem stepFn_capacity {s s' : GateState} {i : Nat} {r : Rule}
    (h : stepFn i r s = some s') : s'.capacity = s.capacity := by
  cases hg : s.pcs[i]? with
  | none =>
    cases r
    case signal target => cases target <;> simp [stepFn, hg] at h
    all_goals simp [stepFn, hg] at h
  | some t =>
    cases r with
    | signal target =>
      cases target with
      | none =>
        simp only [stepFn, hg] at h
        split at h
        next => injection h with h; subst h; rfl
        next => exact Option.noConfusion h
      | some j =>
        simp only [stepFn, hg] at h
        cases hgj : s.pcs[j]? with
        | none => rw [hgj] at h; exact Option.noConfusion h
        | some u =>
          rw [hgj] at h
          dsimp only at h
          split at h
          next => injection h with h; subst h; rfl
          next => exact Option.noConfusion h
    | _ =>
      simp only [stepFn, hg] at h
      split at h
      next => injection h with h; subst h; rfl
      next => exact Option.noConfusion h

theorem run_capacity {tr : List (Nat × Rule)} :
    ∀ {s s' : GateState}, run s tr = some s' → s'.capacity = s.capacity := by
  induction tr with
  | nil =>
    intro s s' h
    injection h with h
    exact h ▸ rfl
  | cons p tr ih =>
    intro s s' h
    obtain ⟨i, r⟩ := p
    rw [run] at h
    cases hstep : stepFn i r s with
    | none => rw [hstep] at h; exact Option.noConfusion h
    | some sm =>
      rw [hstep] at h
      exact (ih h).trans (stepFn_capacity hstep)

/-- Every state reachable from a well-formed initial state satisfies the
invariant and keeps the configured capacity. -/
theorem reachable_inv {n : Nat} {cap : Int} {s : GateState} (hcap : 0 ≤ cap)
    (hr : Reachable (mkInit n cap) s) : Inv s ∧ s.capacity = cap := by
  obtain ⟨tr, htr⟩ := hr
  exact ⟨inv_run (inv_mkInit n cap hcap) htr, run_capacity htr⟩

/-- A step that changes either shared counter is taken while the stepping
thread holds the gate's lock (the lock-held premise of the four
counter-mutating rules). -/
theorem counters_mut_lock {s s' : GateState} {i : Nat} {r : Rule}
    (h : stepFn i r s = some s')
    (hmut : s'.active ≠ s.active ∨ s'.waiting ≠ s.waiting) : s.lock = some i := by
  cases hg : s.pcs[i]? with
  | none =>
    cases r
    case signal target => cases target <;> simp [stepFn, hg] at h
    all_goals simp [stepFn, hg] at h
  | some t =>
    cases r with
    | incWaiting =>
      simp only [stepFn, hg] at h
      split at h
      next hc => exact hc.2
      next => exact Option.noConfusion h
    | decWaiting =>
      simp only [stepFn, hg] at h
      split at h
      next hc => exact hc.2
      next => exact Option.noConfusion h
    | incActive =>
      simp only [stepFn, hg] at h
      split at h
      next hc => exact hc.2
      next => exact Option.noConfusion h
    | decActive =>
      simp only [stepFn, hg] at h
      split at h
      next hc => exact hc.2
      next => exact Option.noConfusion h
    | signal target =>
      cases target with
      | none =>
        simp only [stepFn, hg] at h
        split at h
        next =>
          injection h with h
          subst h
          rcases hmut with hm | hm <;> exact absurd rfl hm
        next => exact Option.noConfusion h
      | some j =>
        simp only [stepFn, hg] at h
        cases hgj : s.pcs[j]? with
        | none => rw [hgj] at h; exact Option.noConfusion h
        | some u =>
          rw [hgj] at h
          dsimp only at h
          split at h
          next =>
            injection h with h
            subst h
            rcases hmut with hm | hm <;> exact absurd rfl hm
          next => exact Option.noConfusion h
    | _ =>
      simp only [stepFn, hg] at h
      split at h
      next =>
        injection h with h
        subst h
        rcases hmut with hm | hm <;> exact absurd rfl hm
      next => exact Option.noConfusion h

/-! C1: the gate counter invariants -/

/-- C1: in every reachable state of the admission gate, for any number
of sessions `n` and any capacity `cap ≥ 1`, the counters satisfy
`0 ≤ active ≤ capacity` and `waiting ≥ 0`, and any step that mutates
either counter is taken by a thread holding the gate's lock. -/
theorem gate_counter_invariants (n : Nat) (cap : Int) (hcap : 1 ≤ cap)
    {s : GateState} (hr : Reachable (mkInit n cap) s) :
    0 ≤ s.active ∧ s.active ≤ cap ∧ 0 ≤ s.waiting ∧
      ∀ (i : Nat) (r : Rule) (s' : GateState), stepFn i r s = some s' →
        (s'.active ≠ s.active ∨ s'.waiting ≠ s.waiting) → s.lock = some i := by
  obtain ⟨inv, hcapEq⟩ := reachable_inv (le_trans zero_le_one hcap) hr
  refine ⟨?_, ?_, ?_, ?_⟩
  · rw [inv.aEq]
    exact Int.natCast_nonneg _
  · rw [← hcapEq]
    exact inv.aLe
  · rw [inv.wEq]
    exact Int.natCast_nonneg _
  · intro i r s' h hm
    exact counters_mut_lock h hm

/-- A schedule from `mkInit 2 1` in which thread 0 completes a full
non-blocking `Acquire`. -/
def c1Trace : List (Nat × Rule) :=
  [(0, .lockPre), (0, .incWaiting), (0, .checkFree), (0, .decWaiting),
   (0, .incActive), (0, .unlockAdmit)]

/-- The state reached by `c1Trace`: thread 0 admitted, thread 1 untouched. -/
def c1State : GateState :=
  { capacity := 1, active := 1, waiting := 0, lock := none,
    pcs := [{ pc := .body, didWait := false }, { pc := .start, didWait := false }] }

theorem gate_counter_invariants_witness :
    0 ≤ c1State.active ∧ c1State.active ≤ 1 ∧ 0 ≤ c1State.waiting ∧
      ∀ (i : Nat) (r : Rule) (s' : GateState), stepFn i r c1State = some s' →
        (s'.active ≠ c1State.active ∨ s'.waiting ≠ c1State.waiting) →
          c1State.lock = some i :=
  gate_counter_invariants 2 1 (by decide) ⟨c1Trace, by decide⟩

/-! C3: the `Acquire` contract -/

/-- C3: in every reachable state, (a) every blocked caller is counted
in `waiting`; (b) `waiting` counts exactly the threads between their own
`waiting++` and `waiting--`, so a caller that has returned from `Acquire`
is no longer counted; (c) a caller at the admission loop test while the
gate is full can only park — the only applicable step leaves it `parked`
and does not change `active`; (d) the step that increments `active` is
taken only when `active < capacity`, and increments it by exactly one. -/
theorem acquire_contract (n : Nat) (cap : Int) (hcap : 0 ≤ cap)
    {s : GateState} (hr : Reachable (mkInit n cap) s) :
    ((countPCs isBlocked s.pcs : Int) ≤ s.waiting) ∧
    (s.waiting = (countPCs inWaitCount s.pcs : Int)) ∧
    (∀ (i : Nat) (r : Rule) (s' : GateState) (t : Th),
        s.pcs[i]? = some t → t.pc = .check → s.active = s.capacity →
        stepFn i r s = some s' →
          s'.pcs[i]? = some { t with pc := PC.parked, didWait := true } ∧
          s'.active = s.active) ∧
    (∀ (i : Nat) (s' : GateState) (t : Th),
        s.pcs[i]? = some t → stepFn i .incActive s = some s' →
          s.active < s.capacity ∧ s'.active = s.active + 1) := by
  obtain ⟨inv, -⟩ := reachable_inv hcap hr
  refine ⟨?_, inv.wEq, ?_, ?_⟩
  · rw [inv.wEq]
    have hmono : countPCs isBlocked s.pcs ≤ countPCs inWaitCount s.pcs := by
      unfold countPCs
      refine List.countP_mono_left ?_
      intro u hu hb
      cases hpc : u.pc <;> rw [hpc] at hb <;> first | rfl | exact absurd hb (by decide)
    exact_mod_cast hmono
  · intro i r s' t hgt ht hfull h
    cases r with
    | checkBusy =>
      simp only [stepFn, hgt] at h
      split at h
      next =>
        injection h with h
        subst h
        have hlen : i < s.pcs.length := by
          by_contra hge
          rw [List.getElem?_eq_none_iff.mpr (Nat.le_of_not_lt hge)] at hgt
          exact Option.noConfusion hgt
        exact ⟨List.getElem?_set_eq hlen, rfl⟩
      next => exact Option.noConfusion h
    | checkFree =>
      simp only [stepFn, hgt] at h
      split at h
      next hc => exact absurd hfull hc.2.2
      next => exact Option.noConfusion h
    | signal target =>
      cases target with
      | none =>
        simp only [stepFn, hgt] at h
        split at h
        next hc =>
          rw [ht] at hc
          exact absurd hc.1 (by simp)
        next => exact Option.noConfusion h
      | some j =>
        simp only [stepFn, hgt] at h
        cases hgj : s.pcs[j]? with
        | none => rw [hgj] at h; exact Option.noConfusion h
        | some u =>
          rw [hgj] at h
          dsimp only at h
          split at h
          next hc =>
            rw [ht] at hc
            exact absurd hc.1 (by simp)
          next => exact Option.noConfusion h
    | _ =>
      simp only [stepFn, hgt] at h
      split at h
      next hc =>
        rw [ht] at hc
        exact absurd hc (by simp)
      next => exact Option.noConfusion h
  · intro i s' t hgt h
    simp only [stepFn, hgt] at h
    split at h
    next hc =>
      have hlt := inv.admitLt i t hgt (Or.inr hc.1)
      injection h with h
      subst h
      exact ⟨hlt, rfl⟩
    next => exact Option.noConfusion h

/-- A schedule from `mkInit 2 1`: thread 0 acquires without blocking, then
thread 1 enters and parks because the gate is full. -/
def c3Trace : List (Nat × Rule) :=
  [(0, .lockPre), (0, .incWaiting), (0, .checkFree), (0, .decWaiting),
   (0, .incActive), (0, .unlockAdmit),
   (1, .lockPre), (1, .incWaiting), (1, .checkBusy)]

/-- The state reached by `c3Trace`: thread 0 admitted, thread 1 parked. -/
def c3State : GateState :=
  { capacity := 1, active := 1, waiting := 1, lock := none,
    pcs := [{ pc := .body, didWait := false }, { pc := .parked, didWait := true }] }

theorem acquire_contract_witness :
    ((countPCs isBlocked c3State.pcs : Int) ≤ c3State.waiting) ∧
    (c3State.waiting = (countPCs inWaitCount c3State.pcs : Int)) ∧
    (∀ (i : Nat) (r : Rule) (s' : GateState) (t : Th),
        c3State.pcs[i]? = some t → t.pc = .check →
        c3State.active = c3State.capacity →
        stepFn i r c3State = some s' →
          s'.pcs[i]? = some { t with pc := PC.parked, didWait := true } ∧
          s'.active = c3State.active) ∧
    (∀ (i : Nat) (s' : GateState) (t : Th),
        c3State.pcs[i]? = some t → stepFn i .incActive c3State = some s' →
          c3State.active < c3State.capacity ∧ s'.active = c3State.active + 1) :=
  acquire_contract 2 1 (by decide) ⟨c3Trace, by decide⟩

/-! Only-possible-step lemmas for the mid-acquire program points -/

theorem getElem_lt {ts : List Th} {i : Nat} {t : Th} (h : ts[i]? = some t) :
    i < ts.length := by
  by_contra hge
  rw [List.getElem?_eq_none_iff.mpr (Nat.le_of_not_lt hge)] at h
  exact Option.noConfusion h

/-- At `locked1` (just after taking the lock in `pre`/`setup`) the only
possible step is `waiting++`, which happens before the loop test and
regardless of whether the caller will block. -/
theorem step_at_locked1 {s : GateState} {i : Nat} {r : Rule} {s' : GateState}
    {t : Th} (hgt : s.pcs[i]? = some t) (ht : t.pc = .locked1)
    (h : stepFn i r s = some s') :
    r = .incWaiting ∧ s'.waiting = s.waiting + 1 ∧ s'.active = s.active ∧
      s'.pcs[i]? = some { t with pc := PC.check } := by
  cases r with
  | incWaiting =>
    simp only [stepFn, hgt] at h
    split at h
    next =>
      injection h with h
      subst h
      exact ⟨rfl, rfl, rfl, List.getElem?_set_eq (getElem_lt hgt)⟩
    next => exact Option.noConfusion h
  | signal target =>
    cases target with
    | none =>
      simp only [stepFn, hgt] at h
      split at h
      next hc => rw [ht] at hc; exact absurd hc (by simp)
      next => exact Option.noConfusion h
    | some j =>
      simp only [stepFn, hgt] at h
      cases hgj : s.pcs[j]? with
      | none => rw [hgj] at h; exact Option.noConfusion h
      | some u =>
        rw [hgj] at h
        dsimp only at h
        split at h
        next hc => rw [ht] at hc; exact absurd hc (by simp)
        next => exact Option.noConfusion h
  | _ =>
    simp only [stepFn, hgt] at h
    split at h
    next hc => rw [ht] at hc; exact absurd hc (by simp)
    next => exact Option.noConfusion h

/-- At `admit1` (loop test passed) the only possible step is `waiting--`,
executed just before `active++`. -/
theorem step_at_admit1 {s : GateState} {i : Nat} {r : Rule} {s' : GateState}
    {t : Th} (hgt : s.pcs[i]? = some t) (ht : t.pc = .admit1)
    (h : stepFn i r s = some s') :
    r = .decWaiting ∧ s'.waiting = s.waiting - 1 ∧ s'.active = s.active ∧
      s'.pcs[i]? = some { t with pc := PC.admit2 } := by
  cases r with
  | decWaiting =>
    simp only [stepFn, hgt] at h
    split at h
    next =>
      injection h with h
      subst h
      exact ⟨rfl, rfl, rfl, List.getElem?_set_eq (getElem_lt hgt)⟩
    next => exact Option.noConfusion h
  | signal target =>
    cases target with
    | none =>
      simp only [stepFn, hgt] at h
      split at h
      next hc => rw [ht] at hc; exact absurd hc (by simp)
      next => exact Option.noConfusion h
    | some j =>
      simp only [stepFn, hgt] at h
      cases hgj : s.pcs[j]? with
      | none => rw [hgj] at h; exact Option.noConfusion h
      | some u =>
        rw [hgj] at h
        dsimp only at h
        split at h
        next hc => rw [ht] at hc; exact absurd hc (by simp)
        next => exact Option.noConfusion h
  | _ =>
    simp only [stepFn, hgt] at h
    split at h
    next hc => rw [ht] at hc; exact absurd hc (by simp)
    next => exact Option.noConfusion h

/-- At `admit2` the only possible step is `active++`. -/
theorem step_at_admit2 {s : GateState} {i : Nat} {r : Rule} {s' : GateState}
    {t : Th} (hgt : s.pcs[i]? = some t) (ht : t.pc = .admit2)
    (h : stepFn i r s = some s') :
    r = .incActive ∧ s'.active = s.active + 1 ∧ s'.waiting = s.waiting ∧
      s'.pcs[i]? = some { t with pc := PC.unlockA } := by
  cases r with
  | incActive =>
    simp only [stepFn, hgt] at h
    split at h
    next =>
      injection h with h
      subst h
      exact ⟨rfl, rfl, rfl, List.getElem?_set_eq (getElem_lt hgt)⟩
    next => exact Option.noConfusion h
  | signal target =>
    cases target with
    | none =>
      simp only [stepFn, hgt] at h
      split at h
      next hc => rw [ht] at hc; exact absurd hc (by simp)
      next => exact Option.noConfusion h
    | some j =>
      simp only [stepFn, hgt] at h
      cases hgj : s.pcs[j]? with
      | none => rw [hgj] at h; exact Option.noConfusion h
      | some u =>
        rw [hgj] at h
        dsimp only at h
        split at h
        next hc => rw [ht] at hc; exact absurd hc (by simp)
        next => exact Option.noConfusion h
  | _ =>
    simp only [stepFn, hgt] at h
    split at h
    next hc => rw [ht] at hc; exact absurd hc (by simp)
    next => exact Option.noConfusion h

/-! C10: the waiting counter over-reports during a non-blocking Acquire -/

/-- State with one thread just after taking the lock in `pre`. -/
def c10Lock1State : GateState :=
  { capacity := 1, active := 0, waiting := 0, lock := some 0,
    pcs := [{ pc := .locked1, didWait := false }] }

/-- State with one thread after `waiting++` but before the loop test: the
gate is empty (`active = 0 < capacity`), no thread is blocked, the thread
never waited, yet `waiting = 1`. -/
def c10State : GateState :=
  { capacity := 1, active := 0, waiting := 1, lock := some 0,
    pcs := [{ pc := .check, didWait := false }] }

/-- C10: every `Acquire` increments `waiting` before testing slot
availability (`incWaiting` is the only step at `locked1`) and decrements
it just before incrementing `active` (`decWaiting` at `admit1`, then
`incActive` at `admit2`), even for callers that never block; consequently
a state is reachable in which the counters read `waiting = 1` although no
thread is blocked and the single mid-acquire thread never waited, so a
concurrent lock-free `Snapshot` can over-report `waiting`. -/
theorem acquire_transient_waiting :
    (∀ (s : GateState) (i : Nat) (r : Rule) (s' : GateState) (t : Th),
        s.pcs[i]? = some t → t.pc = .locked1 → stepFn i r s = some s' →
          r = .incWaiting ∧ s'.waiting = s.waiting + 1 ∧ s'.active = s.active ∧
          s'.pcs[i]? = some { t with pc := PC.check }) ∧
    (∀ (s : GateState) (i : Nat) (r : Rule) (s' : GateState) (t : Th),
        s.pcs[i]? = some t → t.pc = .admit1 → stepFn i r s = some s' →
          r = .decWaiting ∧ s'.waiting = s.waiting - 1 ∧ s'.active = s.active ∧
          s'.pcs[i]? = some { t with pc := PC.admit2 }) ∧
    (∀ (s : GateState) (i : Nat) (r : Rule) (s' : GateState) (t : Th),
        s.pcs[i]? = some t → t.pc = .admit2 → stepFn i r s = some s' →
          r = .incActive ∧ s'.active = s.active + 1 ∧ s'.waiting = s.waiting ∧
          s'.pcs[i]? = some { t with pc := PC.unlockA }) ∧
    (Reachable (mkInit 1 1) c10State ∧ c10State.waiting = 1 ∧
      countPCs isBlocked c10State.pcs = 0 ∧ c10State.active < c10State.capacity ∧
      ∀ t ∈ c10State.pcs, t.didWait = false) :=
  ⟨fun _ _ _ _ _ hgt ht h => step_at_locked1 hgt ht h,
   fun _ _ _ _ _ hgt ht h => step_at_admit1 hgt ht h,
   fun _ _ _ _ _ hgt ht h => step_at_admit2 hgt ht h,
   ⟨[(0, .lockPre), (0, .incWaiting)], by decide⟩, rfl, rfl, by decide, by decide⟩

theorem acquire_transient_waiting_witness :
    Rule.incWaiting = Rule.incWaiting ∧
      c10State.waiting = c10Lock1State.waiting + 1 ∧
      c10State.active = c10Lock1State.active ∧
      c10State.pcs[0]? = some { pc := PC.check, didWait := false } :=
  (acquire_transient_waiting).1 c10Lock1State 0 .incWaiting c10State
    { pc := .locked1, didWait := false } (by decide) rfl (by decide)

/-! C4: the `Release` contract -/

/-- Number of `Release` decrements (`decActive` steps) executed while
`waiting > 0`, along a schedule. -/
def relWW (s : GateState) : List (Nat × Rule) → Nat
  | [] => 0
  | (i, r) :: tr =>
    match stepFn i r s with
    | some s' => (if r = .decActive ∧ 0 < s.waiting then 1 else 0) + relWW s' tr
    | none => 0

/-- Number of completed `Acquire`s by callers that blocked at least once:
they return from `pre`/`setup` at their `unlockAdmit` step with the
`didWait` flag set. -/
def blockedReturns (s : GateState) : List (Nat × Rule) → Nat
  | [] => 0
  | (i, r) :: tr =>
    match stepFn i r s with
    | some s' =>
      (if r = .unlockAdmit ∧ (s.pcs[i]?).any Th.didWait = true then 1 else 0)
        + blockedReturns s' tr
    | none => 0

/-- The claim of C4 as stated, rendered over complete schedules: a
`Release` performed while `waiting > 0` causes exactly one blocked
`Acquire` to return — never zero, never more than one — and a release with
no waiters admits nobody; hence over any schedule that runs every session
to completion, the number of releases-under-waiting equals the number of
completed formerly-blocked acquires. -/
def releaseAdmitsExactlyOne : Prop :=
  ∀ (n : Nat) (cap : Int) (tr : List (Nat × Rule)) (s' : GateState),
    run (mkInit n cap) tr = some s' → (∀ t ∈ s'.pcs, t.pc = PC.final) →
    relWW (mkInit n cap) tr = blockedReturns (mkInit n cap) tr

/-- A complete schedule for three sessions at capacity 1 exhibiting
barging: thread 0 admits and thread 1 parks; thread 0 releases with
`waiting > 0`, but before its `Signal` lands, thread 2 barges in and takes
the freed slot, so the woken thread 1 re-parks; thread 2 then releases
(again with `waiting > 0`) and thread 1 finally admits.  Two releases are
performed under `waiting > 0` yet only one blocked `Acquire` returns. -/
def c4Trace : List (Nat × Rule) :=
  [(0, .lockPre), (0, .incWaiting), (0, .checkFree), (0, .decWaiting),
   (0, .incActive), (0, .unlockAdmit),
   (1, .lockPre), (1, .incWaiting), (1, .checkBusy),
   (0, .bodyDone), (0, .lockPost), (0, .decActive), (0, .unlockRel),
   (2, .lockPre), (2, .incWaiting), (2, .checkFree), (2, .decWaiting),
   (2, .incActive), (2, .unlockAdmit),
   (0, .signal (some 1)),
   (1, .wakeLock), (1, .checkBusy),
   (2, .bodyDone), (2, .lockPost), (2, .decActive), (2, .unlockRel),
   (2, .signal (some 1)),
   (1, .wakeLock), (1, .checkFree), (1, .decWaiting), (1, .incActive),
   (1, .unlockAdmit),
   (1, .bodyDone), (1, .lockPost), (1, .decActive), (1, .unlockRel),
   (1, .signal none)]

/-- The final state of `c4Trace`: all three sessions finished. -/
def c4Final : GateState :=
  { capacity := 1, active := 0, waiting := 0, lock := none,
    pcs := [{ pc := .final, didWait := false }, { pc := .final, didWait := true },
            { pc := .final, didWait := false }] }

/-- C4 counterexample: on the concrete complete schedule `c4Trace`
(three sessions, capacity 1) two releases are performed while
`waiting > 0` but only one blocked `Acquire` ever returns, so a release
under waiters can admit zero blocked callers. -/
theorem release_exactly_one_cex : ¬ releaseAdmitsExactlyOne := by
  intro hclaim
  have heq := hclaim 3 1 c4Trace c4Final (by decide) (by decide)
  have h2 : relWW (mkInit 3 1) c4Trace = 2 := by decide
  have h3 : blockedReturns (mkInit 3 1) c4Trace = 1 := by decide
  rw [h2, h3] at heq
  exact absurd heq (by decide)

/-- C4 (amended): `Release` atomically decrements `active` by exactly
one while holding the lock, and its `Signal` wakes at most one parked
caller — exactly one when any is parked, and a no-op when none is — never
touching the counters; a woken caller must re-acquire the lock and re-test
the gate, so at most one blocked `Acquire` returns per release, and
possibly zero when a concurrently arriving `Acquire` takes the freed slot
first (as `release_exactly_one_cex` shows). -/
theorem release_decrement_and_single_wake (i : Nat) (s s' : GateState) :
    (stepFn i .decActive s = some s' →
        s'.active = s.active - 1 ∧ s'.waiting = s.waiting ∧ s.lock = some i) ∧
    (∀ j : Nat, stepFn i (.signal (some j)) s = some s' →
        s'.active = s.active ∧ s'.waiting = s.waiting ∧
        (∃ u : Th, s.pcs[j]? = some u ∧ u.pc = PC.parked ∧
          s'.pcs[j]? = some { u with pc := PC.woken }) ∧
        ∀ k : Nat, k ≠ i → k ≠ j → s'.pcs[k]? = s.pcs[k]?) ∧
    (stepFn i (.signal none) s = some s' →
        s'.active = s.active ∧ s'.waiting = s.waiting ∧
        (∀ u ∈ s.pcs, u.pc ≠ PC.parked) ∧
        ∀ k : Nat, k ≠ i → s'.pcs[k]? = s.pcs[k]?) := by
  refine ⟨?_, ?_, ?_⟩
  · intro h
    cases hg : s.pcs[i]? with
    | none => simp [stepFn, hg] at h
    | some t =>
      simp only [stepFn, hg] at h
      split at h
      next hc =>
        injection h with h
        subst h
        exact ⟨rfl, rfl, hc.2⟩
      next => exact Option.noConfusion h
  · intro j h
    cases hg : s.pcs[i]? with
    | none => simp [stepFn, hg] at h
    | some t =>
      simp only [stepFn, hg] at h
      cases hgj : s.pcs[j]? with
      | none => rw [hgj] at h; exact Option.noConfusion h
      | some u =>
        rw [hgj] at h
        dsimp only at h
        split at h
        next hc =>
          obtain ⟨hpc, hupc, hij⟩ := hc
          injection h with h
          subst h
          refine ⟨rfl, rfl, ⟨u, rfl, hupc, ?_⟩, ?_⟩
          · exact List.getElem?_set_eq (by simpa using getElem_lt hgj)
          · intro k hki hkj
            rw [List.getElem?_set_ne (fun hh => hkj hh.symm),
              List.getElem?_set_ne (fun hh => hki hh.symm)]
        next => exact Option.noConfusion h
  · intro h
    cases hg : s.pcs[i]? with
    | none => simp [stepFn, hg] at h
    | some t =>
      simp only [stepFn, hg] at h
      split at h
      next hc =>
        injection h with h
        subst h
        refine ⟨rfl, rfl, hc.2, ?_⟩
        intro k hki
        rw [List.getElem?_set_ne (fun hh => hki hh.symm)]
      next => exact Option.noConfusion h

/-- One concrete release: a single admitted thread holding the lock at its
`active--` statement. -/
def c4RelState : GateState :=
  { capacity := 1, active := 1, waiting := 0, lock := some 0,
    pcs := [{ pc := .locked2, didWait := false }] }

/-- The state after the decrement of `c4RelState`. -/
def c4RelStateAfter : GateState :=
  { capacity := 1, active := 0, waiting := 0, lock := some 0,
    pcs := [{ pc := .unlockR, didWait := false }] }

theorem release_decrement_and_single_wake_witness :
    c4RelStateAfter.active = c4RelState.active - 1 ∧
      c4RelStateAfter.waiting = c4RelState.waiting ∧
      c4RelState.lock = some 0 :=
  (release_decrement_and_single_wake 0 c4RelState c4RelStateAfter).1 (by decide)

/-! Session lifecycle models (C5, C6, C7)

The per-session control flow of both variants is straight-line code once
the dial outcome is fixed; we embed it as the list of observable events a
session performs, together with a flag recording whether the session
panicked. -/

/-- Observable per-session events. -/
inductive Ev
  | acquire
  | release
  | dialAttempt (ok : Bool)
  | copyPhase
  | closeClient
  | closeServer
  | logSuccess
  | logError
  deriving DecidableEq, Repr

/-- A log-line event of either kind. -/
def isLog : Ev → Bool
  | .logSuccess | .logError => true
  | _ => false

/-- The outcome of one session: its event list and whether it crashed. -/
structure SessionRun where
  events : List Ev
  crashed : Bool
  deriving DecidableEq, Repr

namespace MainGo

/-- Go runs deferred calls in LIFO order when the surrounding function
returns. -/
def runDefers (ds : List (List Ev)) : List Ev := ds.reverse.join

/-- Embedding of `proxy` (src/main.go:62-135).  The function defers, in
this order, the log statement, `c.Close()` and `post()`; it then calls
`pre()`, dials the backend, and on success defers `p.Close()` and runs the
two copies to completion (`w.Wait()` waits for both `w.Done()` calls)
before returning; on dial failure it returns immediately.  `dialOk`
abstracts whether `net.Dial` succeeds; the deferred log line reports
`status=error` exactly when `err` is non-nil, i.e. when the dial failed. -/
def proxy (dialOk : Bool) : SessionRun :=
  if dialOk then
    { events := [Ev.acquire, Ev.dialAttempt true, Ev.copyPhase] ++
        runDefers [[Ev.logSuccess], [Ev.closeClient], [Ev.release],
          [Ev.closeServer]],
      crashed := false }
  else
    { events := [Ev.acquire, Ev.dialAttempt false] ++
        runDefers [[Ev.logError], [Ev.closeClient], [Ev.release]],
      crashed := false }

end MainGo

namespace Part000

/-- Go's `net.Dial` returns a nil `Conn` together with a non-nil error on
failure (part_000:75); the `c.server` field is modelled as `Option Unit`
with `none` for the nil interface value it keeps after a failed dial. -/
def dialResult (dialOk : Bool) : Option Unit :=
  if dialOk then some () else none

/-- Invoking a method on a nil interface value panics in Go, so
`c.server.Close()` returns an event only for a non-nil connection and
panics (`none`) otherwise. -/
def serverClose (conn : Option Unit) : Option Ev :=
  match conn with
  | some _ => some Ev.closeServer
  | none => none

/-- Embedding of `(*client).doProxy` (part_000:73-84): dial the backend; on error call
`logError` and return, otherwise run `copyAll` and `logSuccess`. -/
def doProxy (dialOk : Bool) : List Ev × Option Unit :=
  match dialResult dialOk with
  | some c => ([Ev.dialAttempt true, Ev.copyPhase, Ev.logSuccess], some c)
  | none => ([Ev.dialAttempt false, Ev.logError], none)

/-- Embedding of `(*client).teardown` (part_000:134-148): close the client connection,
then `c.server.Close()` — which panics when `c.server` is the nil value
left by a failed dial, so the remaining statements (`active--` and
`wCond.Signal()`, the gate release) never execute. -/
def teardown (server : Option Unit) : List Ev × Bool :=
  match serverClose server with
  | some ev => ([Ev.closeClient, ev, Ev.release], false)
  | none => ([Ev.closeClient], true)

/-- Embedding of `(*client).mind` (part_000:150-154): `setup` (gate acquire), then
`doProxy`, then `teardown`. -/
def mind (dialOk : Bool) : SessionRun :=
  let p := doProxy dialOk
  let td := teardown p.2
  { events := Ev.acquire :: (p.1 ++ td.1), crashed := td.2 }

end Part000

/-- C5 (code bug): in `main.go` every session — success or dial
failure — performs exactly one `Acquire`/`Release` pair and one log line,
and so does a successful `part_000` session; but a `part_000` session
whose dial fails performs its one `Acquire` and its one log line and then
panics in `teardown`, so its `Release` never executes: the session
performs zero releases, violating the exactly-one-pair contract. -/
theorem session_acquire_release_log_bug :
    ((MainGo.proxy true).events.count Ev.acquire = 1 ∧
      (MainGo.proxy true).events.count Ev.release = 1 ∧
      (MainGo.proxy true).events.countP isLog = 1 ∧
      (MainGo.proxy true).crashed = false) ∧
    ((MainGo.proxy false).events.count Ev.acquire = 1 ∧
      (MainGo.proxy false).events.count Ev.release = 1 ∧
      (MainGo.proxy false).events.countP isLog = 1 ∧
      (MainGo.proxy false).crashed = false) ∧
    ((Part000.mind true).events.count Ev.acquire = 1 ∧
      (Part000.mind true).events.count Ev.release = 1 ∧
      (Part000.mind true).events.countP isLog = 1 ∧
      (Part000.mind true).crashed = false) ∧
    ((Part000.mind false).events.count Ev.acquire = 1 ∧
      (Part000.mind false).events.count Ev.release = 0 ∧
      (Part000.mind false).events.countP isLog = 1 ∧
      (Part000.mind false).crashed = true) := by
  decide

/-- C6 (code bug): on a failed dial, the `main.go` variant behaves as
the claim states — it logs `status=error`, releases the gate slot (one
release matching the one acquire, so `active` returns to its pre-acquire
value) and closes the inbound socket without crashing; but the `part_000`
variant logs the error and closes the client socket and then panics on
`c.server.Close()`, so the slot is never released and the panic kills the
whole process, affecting every other session. -/
theorem dial_failure_handling_bug :
    ((MainGo.proxy false).events =
        [Ev.acquire, Ev.dialAttempt false, Ev.release, Ev.closeClient,
          Ev.logError] ∧
      (MainGo.proxy false).crashed = false ∧
      (MainGo.proxy false).events.count Ev.release =
        (MainGo.proxy false).events.count Ev.acquire) ∧
    ((Part000.mind false).events =
        [Ev.acquire, Ev.dialAttempt false, Ev.logError, Ev.closeClient] ∧
      (Part000.mind false).crashed = true ∧
      (Part000.mind false).events.count Ev.release = 0) := by
  decide

/-- C7 (code bug): on the success path both variants close both
sockets exactly once during teardown; but closing the never-opened backend
socket after a failed dial is *not* safe in `part_000`: `c.server` is the
nil interface left by the failed `net.Dial`, and `c.server.Close()` in
`teardown` panics, crashing the process — the close never happens.  (In
`main.go` the backend close is only deferred after a successful dial, so
the failure path closes just the client socket and does not crash.) -/
theorem socket_close_teardown_bug :
    ((MainGo.proxy true).events.count Ev.closeClient = 1 ∧
      (MainGo.proxy true).events.count Ev.closeServer = 1 ∧
      (MainGo.proxy true).crashed = false) ∧
    ((Part000.mind true).events.count Ev.closeClient = 1 ∧
      (Part000.mind true).events.count Ev.closeServer = 1 ∧
      (Part000.mind true).crashed = false) ∧
    ((MainGo.proxy false).events.count Ev.closeClient = 1 ∧
      (MainGo.proxy false).events.count Ev.closeServer = 0 ∧
      (MainGo.proxy false).crashed = false) ∧
    ((Part000.mind false).events.count Ev.closeClient = 1 ∧
      (Part000.mind false).events.count Ev.closeServer = 0 ∧
      (Part000.mind false).crashed = true) := by
  decide

/-! C2: when the pump declares the session finished -/

namespace Pump

/-- Insertion into a sorted list of completion times. -/
def insertT (x : Nat) : List Nat → List Nat
  | [] => [x]
  | y :: ys => if x ≤ y then x :: y :: ys else y :: insertT x ys

/-- Sort completion times ascending. -/
def sortT : List Nat → List Nat
  | [] => []
  | x :: xs => insertT x (sortT xs)

/-- Semantics of `sync.WaitGroup`: with `k` charged by `Add(k)`, `Wait`
returns at the moment of the `k`-th `Done`, i.e. at the `k`-th smallest of
the completion times. -/
def wgWaitReturn (k : Nat) (doneTimes : List Nat) : Option Nat :=
  (sortT doneTimes)[k - 1]?

/-- Unbuffered-channel receive semantics: a single `<-done` completes
together with the earliest pending send. -/
def chanFirstRecv (sendTimes : List Nat) : Option Nat :=
  (sortT sendTimes).head?

/-- src/main.go:115-134: `w.Add(2)`, one goroutine per copy direction each
ending in `w.Done()`, then `w.Wait()`; `doneAt` (the `finished` moment) is
recorded when `Wait` returns.  `t1`, `t2` are the times at which the two
`io.Copy` loops terminate. -/
def mainGoFinishedAt (t1 t2 : Nat) : Option Nat := wgWaitReturn 2 [t1, t2]

/-- part_000:58-71: `copyAll` spawns `copyTo` and `copyFrom`, each sending
on the unbuffered channel `done` when its `io.Copy` returns, and performs
a single `<-done`; `c.done` (the `finished` moment) is recorded when that
receive completes. -/
def part000FinishedAt (t1 t2 : Nat) : Option Nat := chanFirstRecv [t1, t2]

end Pump

/-- The C2 claim as stated: in both source variants the session's
`finished` timestamp is recorded as soon as the earlier of the two copy
directions terminates, without waiting for the other. -/
def bothVariantsEitherSideDone : Prop :=
  ∀ t1 t2 : Nat, Pump.mainGoFinishedAt t1 t2 = some (min t1 t2) ∧
    Pump.part000FinishedAt t1 t2 = some (min t1 t2)

/-- C2 counterexample: with copy termination times 0 and 1, the
`main.go` pump records `doneAt` at time 1 — after **both** directions have
finished — not at time 0 as the either-side-done claim requires. -/
theorem pump_either_side_done_cex : ¬ bothVariantsEitherSideDone := by
  intro hclaim
  exact absurd (hclaim 0 1).1 (by decide)

/-- C2 (amended): the struct-based variant (`part_000`) declares the
session finished as soon as either copy direction terminates, but the
closure-based variant (`main.go`) waits for both: its `finished` timestamp
is the later of the two copy termination times. -/
theorem pump_completion_policies (t1 t2 : Nat) :
    Pump.part000FinishedAt t1 t2 = some (min t1 t2) ∧
      Pump.mainGoFinishedAt t1 t2 = some (max t1 t2) := by
  unfold Pump.part000FinishedAt Pump.mainGoFinishedAt Pump.chanFirstRecv
    Pump.wgWaitReturn
  by_cases hle : t1 ≤ t2
  · simp [Pump.sortT, Pump.insertT, hle, Nat.min_eq_left hle,
      Nat.max_eq_right hle]
  · have hle2 : t2 ≤ t1 := Nat.le_of_not_le hle
    simp [Pump.sortT, Pump.insertT, hle, Nat.min_eq_right hle2,
      Nat.max_eq_left hle2]

/-! C8: the orphaned copy task after teardown -/

/-- Operations on the unbuffered `done` channel of a `part_000` session. -/
inductive ChanOp
  | send
  | recv
  deriving DecidableEq, Repr

/-- part_000:44-49: after its `io.Copy` returns, `copyTo` calls
`c.w.Done()` (which never blocks) and then performs one send
`done <- true`. -/
def copyToDoneOps : List ChanOp := [ChanOp.send]

/-- part_000:51-56: `copyFrom` likewise ends with one send on `done`. -/
def copyFromDoneOps : List ChanOp := [ChanOp.send]

/-- part_000:58-66: `copyAll` performs exactly one receive `<-done`;
neither `mind` nor `teardown` (part_000:134-154) ever receives from
`done` again. -/
def copyAllDoneOps : List ChanOp := [ChanOp.recv]

/-- The channel `done := make(chan bool)` is unbuffered: a send completes only by
rendezvous with a receive, so over a whole execution exactly
`min sends recvs` sends complete; the remaining senders block forever. -/
def sendsCompleted (sends recvs : Nat) : Nat := min sends recvs

/-- Sends the copy tasks of one `part_000` session attempt on `done`. -/
def part000SessionSends : Nat :=
  (copyToDoneOps ++ copyFromDoneOps).count ChanOp.send

/-- Receives the rest of the session performs on `done`. -/
def part000SessionRecvs : Nat := copyAllDoneOps.count ChanOp.recv

/-- Copy tasks of one `part_000` session left blocked forever on their
`done <- true`, even after teardown has closed both sockets and the
`io.Copy` loops have terminated. -/
def part000LeakedCopyTasks : Nat :=
  part000SessionSends - sendsCompleted part000SessionSends part000SessionRecvs

/-- The `main.go` copy goroutines (src/main.go:120-129) end with the
non-blocking `w.Done()` only: no channel operation can block them after
their copy terminates. -/
def mainGoCopyBlockingOps : List ChanOp := []

/-- C8 (code bug): in `part_000`, once both `io.Copy` loops have been
terminated by the forced socket closes of teardown, the two copy tasks
attempt two sends on the unbuffered `done` channel whereas the session
only ever receives once, so exactly one copy task per session remains
blocked forever on `done <- true` — the claim's "no copy task remains
blocked indefinitely after teardown" fails.  (`main.go`'s copy goroutines
perform no blocking operation after their copy.) -/
theorem orphaned_copy_task_leak_bug :
    part000SessionSends = 2 ∧ part000SessionRecvs = 1 ∧
      part000LeakedCopyTasks = 1 ∧ mainGoCopyBlockingOps.length = 0 := by
  decide

/-! C9: the stats responder -/

/-- Operations the stats connection handler performs on one accepted
connection. -/
inductive StatsEv
  | writeData (s : String)
  | closeConn
  | readReq
  deriving DecidableEq, Repr

def isWrite : StatsEv → Bool
  | .writeData _ => true
  | _ => false

def isRead : StatsEv → Bool
  | .readReq => true
  | _ => false

/-- The string `fmt.Fprintf(c, "active: %d, waiting: %d\n", active,
waiting)` produces (src/main.go:176, part_000:204); `%d` on a Go `int` is
the decimal rendering, `toString` on `Int` here. -/
def statsLine (a w : Int) : String :=
  "active: " ++ toString a ++ ", waiting: " ++ toString w ++ "\n"

/-- The stats connection handler (src/main.go:173-177, part_000:201-205):
it writes the formatted line, then runs the deferred `c.Close()`; it never
reads from the connection. -/
def statsHandle (a w : Int) : List StatsEv :=
  [StatsEv.writeData (statsLine a w), StatsEv.closeConn]

theorem ite_char_ne {c : Prop} [Decidable c] {a b : Char} (ha : a ≠ '\n')
    (hb : b ≠ '\n') : (if c then a else b) ≠ '\n' := by
  by_cases h : c
  · rw [if_pos h]
    exact ha
  · rw [if_neg h]
    exact hb

theorem digitChar_ne_newline (n : Nat) : Nat.digitChar n ≠ '\n' := by
  unfold Nat.digitChar
  repeat' apply ite_char_ne
  all_goals decide

theorem toDigitsCore_ne_newline (b : Nat) :
    ∀ (fuel n : Nat) (acc : List Char), (∀ c ∈ acc, c ≠ '\n') →
      ∀ c ∈ Nat.toDigitsCore b fuel n acc, c ≠ '\n' := by
  intro fuel
  induction fuel with
  | zero =>
    intro n acc hacc c hc
    simp only [Nat.toDigitsCore] at hc
    exact hacc c hc
  | succ fuel ih =>
    intro n acc hacc c hc
    simp only [Nat.toDigitsCore] at hc
    split at hc
    · rcases List.mem_cons.mp hc with rfl | hmem
      · exact digitChar_ne_newline _
      · exact hacc c hmem
    · refine ih (n / b) (Nat.digitChar (n % b) :: acc) ?_ c hc
      intro x hx
      rcases List.mem_cons.mp hx with rfl | hmem
      · exact digitChar_ne_newline _
      · exact hacc x hmem

theorem natRepr_ne_newline (n : Nat) : ∀ c ∈ (Nat.repr n).data, c ≠ '\n' := by
  intro c hc
  refine toDigitsCore_ne_newline 10 (n + 1) n [] ?_ c hc
  intro x hx
  exact absurd hx (List.not_mem_nil x)

theorem intToString_ne_newline (a : Int) :
    ∀ c ∈ (toString a).data, c ≠ '\n' := by
  cases a with
  | ofNat m => exact natRepr_ne_newline m
  | negSucc m =>
    intro c hc
    have he : (toString (Int.negSucc m)).data = '-' :: (Nat.repr (m + 1)).data :=
      rfl
    rw [he] at hc
    rcases List.mem_cons.mp hc with rfl | hmem
    · decide
    · exact natRepr_ne_newline (m + 1) c hmem

/-- C9: for every accepted stats connection the handler writes exactly
one string and then closes the connection, performing no read of any
request payload; the written string carries the gate's current counters in
the format `active: <int>, waiting: <int>` and is exactly one line — it
contains exactly one newline, as its final character. -/
theorem stats_responder_contract (a w : Int) :
    statsHandle a w = [StatsEv.writeData (statsLine a w), StatsEv.closeConn] ∧
    (statsHandle a w).countP isWrite = 1 ∧
    (statsHandle a w).countP isRead = 0 ∧
    (statsHandle a w).getLast? = some StatsEv.closeConn ∧
    statsLine a w =
      "active: " ++ toString a ++ ", waiting: " ++ toString w ++ "\n" ∧
    (statsLine a w).data.count '\n' = 1 ∧
    (statsLine a w).data.getLast? = some '\n' := by
  have hdata : (statsLine a w).data =
      ("active: ".data ++ (toString a).data ++ ", waiting: ".data ++
        (toString w).data) ++ ['\n'] := by
    simp [statsLine]
  refine ⟨rfl, rfl, rfl, rfl, rfl, ?_, ?_⟩
  · rw [hdata]
    have hza : (toString a).data.count '\n' = 0 :=
      List.count_eq_zero.mpr (fun hmem => intToString_ne_newline a _ hmem rfl)
    have hzw : (toString w).data.count '\n' = 0 :=
      List.count_eq_zero.mpr (fun hmem => intToString_ne_newline w _ hmem rfl)
    simp [List.count_append, hza, hzw]
  · rw [hdata]
    exact List.getLast?_concat _

end TcpClProxy
